import Mathlib

set_option linter.unusedVariables false

/-!
Verification of the delta-engine commands of `wharf_ops.go` (diff, apply,
sign, verify).  The repository file itself is glue around the `wharf`
library: the algorithmic core (signature computation, the diff scan, patch
application, signature (de)serialization, hash comparison) lives outside the
repository and is therefore modelled here from the specification, while the
control logic visible in `wharf_ops.go` (null-tree selection, the in-place
gate, the reported verification counts, the unused `brotliQuality`
parameter) is embedded directly from the source.

A tree is modelled by the ordered list of its files' byte contents; bytes
are natural numbers.  Machine-integer hashes are naturals reduced modulo
`2 ^ 32` where the width matters.
-/

/-- A directory tree, reduced to the ordered list of its files' bytes. -/
abbrev FileTree := List (List Nat)

/-- Total byte size of a container: the sum of the sizes of all its files. -/
def containerSize (t : FileTree) : Nat :=
  (t.map List.length).sum

/-- Modelled from the spec (§4.1): the weak rolling hash, a sum-based
checksum over the window reduced to 32 bits.  The spec leaves the concrete
scheme open (requiring only an O(1) sliding update, which a byte sum has);
only its collision-tolerant nature matters to the claims. -/
def weakHash (b : List Nat) : Nat :=
  b.sum % 4294967296

/-- Modelled from the spec (§4.1): the strong hash, a collision-resistant
digest.  It is idealized as an injective function of the block (the digest
is the block itself), reflecting the spec's demand that two different
blocks never share it in practice. -/
def strongHash (b : List Nat) : List Nat :=
  b

/-- A per-block hash record: weak and strong hash, as in the spec (§3). -/
structure BlockHash where
  weak : Nat
  strong : List Nat
deriving DecidableEq

/-- Modelled from the spec (§3): number of fixed-size blocks of a file of
`n` bytes, `ceil(n / bs)`; an empty file has zero blocks. -/
def numBlocks (bs n : Nat) : Nat :=
  (n + bs - 1) / bs

/-- Modelled from the spec (§3, §4.1): the blocks of a file, as pairs of
byte offset and block content: full blocks of size `bs` plus a trailing
short block when the size is not a multiple of `bs`. -/
def fileChunks (bs : Nat) (f : List Nat) : List (Nat × List Nat) :=
  (List.range (numBlocks bs f.length)).map (fun k => (k * bs, (f.drop (k * bs)).take bs))

/-- Hash one block. -/
def hashBlock (b : List Nat) : BlockHash :=
  { weak := weakHash b, strong := strongHash b }

/-- Modelled from the spec (§4.1): `ComputeSignature` of the wharf library
(not part of the repository): the per-file block hashes, flattened in
container order. -/
def computeSignature (bs : Nat) (t : FileTree) : List BlockHash :=
  t.flatMap (fun f => (fileChunks bs f).map (fun p => hashBlock p.2))

/-- Modelled from the spec (§4.3 step 1): the lookup pool of candidate
target blocks, scoped to the whole target tree: triples of file index,
byte offset and block content, file `i` onward. -/
def treeBlocks (bs i : Nat) : FileTree → List (Nat × Nat × List Nat)
  | [] => []
  | f :: rest =>
      (fileChunks bs f).map (fun p => (i, p.1, p.2)) ++ treeBlocks bs (i + 1) rest

/-- A patch operation (spec §3): copy a byte range of a target file, or
fresh literal bytes. -/
inductive Op where
  | blockCopy (fileIdx off len : Nat)
  | literal (data : List Nat)
deriving DecidableEq

/-- Modelled from the spec (§4.3 step 5): emit the pending literal run,
when non-empty, as a single Literal operation. -/
def flushLiteral (pending : List Nat) : List Op :=
  if pending = [] then [] else [Op.literal pending]

/-- Modelled from the spec (§4.3 steps 3 and tie-break): among the target
blocks whose weak hash equals the window's, the first whose strong hash
also matches. -/
def findMatch (tb : List (Nat × Nat × List Nat)) (w : List Nat) : Option (Nat × Nat × List Nat) :=
  (tb.filter (fun b => decide (weakHash b.2.2 = weakHash w))).find?
    (fun b => decide (strongHash b.2.2 = strongHash w))

/-- Modelled from the spec (§4.3 steps 2-5): the per-file diff scan.
`pending` is the accumulated literal run, `skip` the number of upcoming
bytes already covered by an emitted BlockCopy (advancing the scan past a
matched block).  At each position with the full window available, a
strong-hash-confirmed candidate yields a BlockCopy; otherwise the byte
joins the literal run.  The run is flushed at a match and at end of
file. -/
def diffScan (bs : Nat) (tb : List (Nat × Nat × List Nat)) :
    List Nat → List Nat → Nat → List Op
  | pending, [], _ => flushLiteral pending
  | pending, _ :: rest, skip + 1 => diffScan bs tb pending rest skip
  | pending, x :: rest, 0 =>
      if (x :: rest).length < bs then
        flushLiteral (pending ++ x :: rest)
      else
        match findMatch tb ((x :: rest).take bs) with
        | some b =>
            flushLiteral pending ++
              Op.blockCopy b.1 b.2.1 bs :: diffScan bs tb [] rest (bs - 1)
        | none => diffScan bs tb (pending ++ [x]) rest 0

/-- Modelled from the spec (§4.3): the whole-tree diff, file by file in
container order, each source file scanned against the pool of all target
blocks. -/
def diffTree (bs : Nat) (t s : FileTree) : List (List Op) :=
  s.map (fun f => diffScan bs (treeBlocks bs 0 t) [] f 0)

/-- Modelled from the spec (§4.4): resolving one operation against the
target tree: a BlockCopy reads the designated byte range of the designated
target file, a Literal supplies its own bytes. -/
def resolveOp (t : FileTree) : Op → List Nat
  | Op.blockCopy fileIdx off len => ((t.getD fileIdx []).drop off).take len
  | Op.literal data => data

/-- Modelled from the spec (§4.4): a file's operations resolved and
concatenated in list order. -/
def applyOps (t : FileTree) : List Op → List Nat
  | [] => []
  | op :: rest => resolveOp t op ++ applyOps t rest

/-- Modelled from the spec (§4.4): `ApplyPatch` of the wharf library (not
part of the repository): every file of the patch replayed against the
target tree. -/
def applyPatch (t : FileTree) (patch : List (List Op)) : FileTree :=
  patch.map (applyOps t)

/-- Bytes an operation contributes to the FreshBytes accumulator. -/
def opFresh : Op → Nat
  | Op.blockCopy _ _ _ => 0
  | Op.literal data => data.length

/-- Bytes an operation contributes to the ReusedBytes accumulator. -/
def opReused : Op → Nat
  | Op.blockCopy _ _ len => len
  | Op.literal _ => 0

/-- FreshBytes total of one file's operation list. -/
def freshOps (ops : List Op) : Nat :=
  (ops.map opFresh).sum

/-- ReusedBytes total of one file's operation list. -/
def reusedOps (ops : List Op) : Nat :=
  (ops.map opReused).sum

/-- Modelled from the spec (§3): the FreshBytes stats accumulator of a
completed diff. -/
def freshBytes (patch : List (List Op)) : Nat :=
  (patch.map freshOps).sum

/-- Modelled from the spec (§3): the ReusedBytes stats accumulator of a
completed diff. -/
def reusedBytes (patch : List (List Op)) : Nat :=
  (patch.map reusedOps).sum

/-- The special path spelling selecting the null tree in `doDiff`
(`wharf_ops.go` lines 28 and 76). -/
def nullPath : String := "/dev/null"

/-- FileTree selection of `doDiff` (`wharf_ops.go` lines 28-29 and 76-84): the
path `/dev/null` denotes the empty container; any other path is resolved by
the directory walker, modelled by the environment `fs`. -/
def resolveTree (fs : String → FileTree) (p : String) : FileTree :=
  if p = nullPath then [] else fs p

/-- Compression descriptor: algorithm identifier (a wire-level enum,
modelled as a natural so that out-of-range values exist) and quality. -/
structure CompressionSettings where
  algorithm : Nat
  quality : Int
deriving DecidableEq

/-- The wire-level identifier of the brotli algorithm. -/
def brotliAlgorithm : Nat := 1

/-- Modelled from the spec (§4.2): the algorithms the codec supports;
deserialization refuses any other identifier with a CompressionError. -/
def supportedCompression (c : CompressionSettings) : Prop :=
  c.algorithm = 0 ∨ c.algorithm = brotliAlgorithm

instance (c : CompressionSettings) : Decidable (supportedCompression c) := by
  unfold supportedCompression; infer_instance

/-- Modelled from the spec (§4.2): `CompressionDefault` of the wharf
library (not part of the repository), the default descriptor used by
`doSign`; its concrete values are opaque, only that it is a fixed supported
descriptor matters. -/
def compressionDefault : CompressionSettings :=
  { algorithm := brotliAlgorithm, quality := 1 }

/-- Kind of a container entry (spec §3). -/
inductive EntryKind where
  | file
  | directory
  | symlink
deriving DecidableEq

/-- A container entry (spec §3). -/
structure Entry where
  path : String
  kind : EntryKind
  size : Nat
  symlinkTarget : String
deriving DecidableEq

/-- A container: the ordered sequence of entries of a tree (spec §3). -/
abbrev Container := List Entry

/-- A message of the compressed section of a signature stream: the
serialized container or one block-hash record. -/
inductive Msg where
  | container (c : Container)
  | blockHash (h : BlockHash)
deriving DecidableEq

/-- A token of the framed signature stream: the magic marker, the header
record, or the compressed section tagged with the descriptor its
compressor was parameterized by. -/
inductive SigToken where
  | magic (m : Nat)
  | header (compression : CompressionSettings)
  | compressed (compression : CompressionSettings) (body : List Msg)
deriving DecidableEq

/-- Modelled from the spec (§4.2): the fixed magic marker opening a
signature stream; the concrete value is opaque. -/
def signatureMagic : Nat := 43981

/-- The signature byte stream written by `doSign` (`wharf_ops.go` lines
221-251), with wharf's wire writers modelled as token emission: the magic
first, then the header record carrying the chosen compression descriptor,
then — through the compressor selected by that descriptor — the container
followed by one BlockHash record per block, streamed in container order
exactly as the `ComputeSignatureToWriter` callback emits them. -/
def doSignStream (bs : Nat) (container : Container) (files : FileTree) : List SigToken :=
  let compression := compressionDefault
  let raw1 := [SigToken.magic signatureMagic]
  let raw2 := raw1 ++ [SigToken.header compression]
  let body1 := [Msg.container container]
  let body2 := (computeSignature bs files).foldl
    (fun acc h => acc ++ [Msg.blockHash { weak := h.weak, strong := h.strong }]) body1
  raw2 ++ [SigToken.compressed compression body2]

/-- A well-formed signature value (spec §3): container, flattened per-file
block hashes in container order, and the compression descriptor. -/
structure SigData where
  container : Container
  hashes : List BlockHash
  compression : CompressionSettings
deriving DecidableEq

/-- Modelled from the spec (§4.2): serialization of a signature value to
the framed stream. -/
def encodeSignature (s : SigData) : List SigToken :=
  [SigToken.magic signatureMagic,
   SigToken.header s.compression,
   SigToken.compressed s.compression
     (Msg.container s.container :: s.hashes.map Msg.blockHash)]

/-- Modelled from the spec (§4.2): reading back the block-hash records of
the compressed section; anything but a block-hash record is a format
error. -/
def decodeBlockHashes : List Msg → Option (List BlockHash)
  | [] => some []
  | Msg.blockHash h :: rest => (decodeBlockHashes rest).map (fun hs => h :: hs)
  | Msg.container _ :: _ => none

/-- Modelled from the spec (§4.2): `ReadSignature` of the wharf library
(not part of the repository), the exact inverse of serialization: check the
magic, read the header, refuse an unsupported compression descriptor, then
read the container and the block-hash records from the compressed
section. -/
def readSignatureStream (s : List SigToken) : Option SigData :=
  match s with
  | [SigToken.magic m, SigToken.header hc, SigToken.compressed bc msgs] =>
      if m ≠ signatureMagic then none
      else if ¬ supportedCompression hc then none
      else if bc ≠ hc then none
      else
        match msgs with
        | Msg.container c :: rest =>
            (decodeBlockHashes rest).map
              (fun hs => { container := c, hashes := hs, compression := hc })
        | _ => none
  | _ => none

/-- Modelled from the spec (§4.5): the position of the first block at
which the recomputed hash sequence disagrees with the reference sequence;
running past either end is itself a mismatch. -/
def firstMismatch : List BlockHash → List BlockHash → Option Nat
  | [], [] => none
  | [], _ :: _ => some 0
  | _ :: _, [] => some 0
  | r :: rs, a :: bs => if r = a then (firstMismatch rs bs).map (· + 1) else some 0

/-- Number of positions at which two hash sequences disagree, trailing
surplus counted. -/
def mismatchCount : List BlockHash → List BlockHash → Nat
  | [], [] => 0
  | [], _ :: bs => bs.length + 1
  | _ :: rs, [] => rs.length + 1
  | r :: rs, a :: bs => (if r = a then 0 else 1) + mismatchCount rs bs

/-- What `doVerify` reports: the location of the first offending block
carried by the comparison error, and the count printed by the fatal
message; both are absent when verification passes. -/
structure VerifyReport where
  firstBad : Option Nat
  failMessageCount : Option Nat
deriving DecidableEq

/-- `doVerify` (`wharf_ops.go` lines 264-297): recompute the output tree's
signature, compare it with the reference hashes, and on failure report the
comparison error (carrying the first mismatching block, modelled from the
spec for wharf's `CompareHashes`) plus a fatal message whose count is
`len(refHashes)` (line 289).  The tree is returned unchanged: the function
only reads it. -/
def doVerifyModel (bs : Nat) (refHashes : List BlockHash) (output : FileTree) :
    VerifyReport × FileTree :=
  match firstMismatch refHashes (computeSignature bs output) with
  | some i =>
      ({ firstBad := some i, failMessageCount := some refHashes.length }, output)
  | none => ({ firstBad := none, failMessageCount := none }, output)

/-- Splitting a character list at slashes; the result always has one
(possibly empty) component per slash-separated segment. -/
def splitOnSlash : List Char → List (List Char)
  | [] => [[]]
  | c :: rest =>
      if c = '/' then [] :: splitOnSlash rest
      else
        match splitOnSlash rest with
        | [] => [[c]]
        | s :: ss => (c :: s) :: ss

/-- The two-dot path component. -/
def dotdot : List Char := ['.', '.']

/-- Resolving the double-dot components against the preceding ones; the
accumulator holds the kept components in reverse order. -/
def cleanStack (rooted : Bool) (comps : List (List Char)) : List (List Char) :=
  comps.foldl
    (fun acc c =>
      if c = dotdot then
        match acc with
        | [] => if rooted then [] else [dotdot]
        | a :: rest => if a = dotdot then c :: acc else rest
      else c :: acc) []

/-- Joining components with slashes. -/
def joinSlash : List (List Char) → List Char
  | [] => []
  | [c] => c
  | c :: rest => c ++ '/' :: joinSlash rest

/-- Modelled from the spec: `path.Clean` of the Go standard library (not
part of the repository), by its documented semantics: collapse repeated
slashes, drop `.` components, resolve each `..` against the preceding
component, drop `..` at the root of a rooted path; the clean of the empty
path is `.`, and a rooted path stays rooted. -/
def cleanPath (p : String) : String :=
  let cs := p.toList
  if cs = [] then "."
  else
    let rooted := decide (cs.head? = some '/')
    let comps := (splitOnSlash cs).filter (fun c => decide (c ≠ [] ∧ c ≠ ['.']))
    let body := joinSlash (cleanStack rooted comps).reverse
    if rooted then String.mk ('/' :: body)
    else if body = [] then "." else String.mk body

/-- Outcome of the precondition gate of `doApply`: the fatal refusal (the
`Dief` fires before the patch file is even opened), or the cleaned paths
the apply proceeds with. -/
inductive ApplyResult where
  | refused (msg : String)
  | proceed (target output : String) (inplace : Bool)
deriving DecidableEq

/-- The precondition gate of `doApply` (`wharf_ops.go` lines 159-170): an
empty output path defaults to the target path, both paths are cleaned, and
a cleaned output equal to the cleaned target is fatally refused unless the
in-place flag is set.  In the source this gate precedes every read of
patch data and every write. -/
def doApplyGate (target output : String) (inplace : Bool) : ApplyResult :=
  let output1 := if output = "" then target else output
  let target2 := cleanPath target
  let output2 := cleanPath output1
  if output2 = target2 ∧ inplace = false then
    ApplyResult.refused ("Refusing to destructively patch " ++ output2 ++ " without --inplace")
  else
    ApplyResult.proceed target2 output2 inplace

/-- Conversion to a 32-bit signed integer, as Go's `int32(...)` cast. -/
def toInt32 (n : Int) : Int :=
  (n + 2147483648) % 4294967296 - 2147483648

/-- The outputs of a completed `doDiff`: the patch, the byproduct
signature of the source, and the compression descriptor written into the
diff context. -/
structure DiffOutput where
  patch : List (List Op)
  signature : List BlockHash
  compression : CompressionSettings

/-- `doDiff` (`wharf_ops.go` lines 22-153) as a function of its inputs:
both trees are resolved (`/dev/null` selecting the empty container), the
diff context is built with the brotli algorithm and the quality read from
the global `diffArgs.quality` cast to `int32` (lines 110-113), and the
patch plus the signature of the source are written.  The `brotliQuality`
parameter is received (line 22) and never used afterwards, exactly as in
the source. -/
def doDiffModel (bs : Nat) (fs : String → FileTree) (target source : String)
    (brotliQuality : Int) (diffArgsQuality : Int) : DiffOutput :=
  let targetTree := resolveTree fs target
  let sourceTree := resolveTree fs source
  let compression : CompressionSettings :=
    { algorithm := brotliAlgorithm, quality := toInt32 diffArgsQuality }
  { patch := diffTree bs targetTree sourceTree,
    signature := computeSignature bs sourceTree,
    compression := compression }

example : numBlocks 2 5 = 3 := by decide
example : fileChunks 2 [1, 2, 3, 4, 5] = [(0, [1, 2]), (2, [3, 4]), (4, [5])] := by decide
example : diffScan 2 (treeBlocks 2 0 [[5, 6]]) [] [5, 6] 0 = [Op.blockCopy 0 0 2] := by decide
example : diffScan 2 (treeBlocks 2 0 [[5, 6]]) [] [9, 5, 6] 0 =
    [Op.literal [9], Op.blockCopy 0 0 2] := by decide
example : applyPatch [[5, 6]] (diffTree 2 [[5, 6]] [[9, 5, 6, 7]]) = [[9, 5, 6, 7]] := by decide

/-- Every chunk of a file is the slice of the file at its recorded
offset. -/
theorem fileChunks_mem {bs : Nat} {f : List Nat} {o : Nat} {b : List Nat}
    (h : (o, b) ∈ fileChunks bs f) : b = (f.drop o).take bs := by
  unfold fileChunks at h
  rw [List.mem_map] at h
  obtain ⟨k, hk, he⟩ := h
  cases he
  rfl

/-- Every block of the target pool is the slice of its file at its
recorded offset. -/
theorem treeBlocks_mem {bs i : Nat} {t : FileTree} {fi o : Nat} {b : List Nat}
    (h : (fi, o, b) ∈ treeBlocks bs i t) :
    i ≤ fi ∧ b = ((t.getD (fi - i) []).drop o).take bs := by
  induction t generalizing i with
  | nil => simp [treeBlocks] at h
  | cons f rest ih =>
      rw [treeBlocks, List.mem_append] at h
      rcases h with h | h
      · rw [List.mem_map] at h
        obtain ⟨p, hp, he⟩ := h
        injection he with h1 h2
        injection h2 with h2 h3
        subst h1
        subst h2
        subst h3
        refine ⟨Nat.le_refl i, ?_⟩
        simp only [Nat.sub_self, List.getD_cons_zero]
        exact fileChunks_mem hp
      · obtain ⟨hle, hb⟩ := ih h
        refine ⟨by omega, ?_⟩
        have hidx : fi - i = (fi - (i + 1)) + 1 := by omega
        rw [hidx, List.getD_cons_succ]
        exact hb

/-- A match returned by the lookup is a pool block agreeing with the
window on the weak and on the strong hash. -/
theorem findMatch_spec {tb : List (Nat × Nat × List Nat)} {w : List Nat}
    {b : Nat × Nat × List Nat} (h : findMatch tb w = some b) :
    b ∈ tb ∧ weakHash b.2.2 = weakHash w ∧ strongHash b.2.2 = strongHash w := by
  unfold findMatch at h
  have hmem := List.mem_of_find?_eq_some h
  have hstrong := List.find?_some h
  rw [List.mem_filter] at hmem
  exact ⟨hmem.1, of_decide_eq_true hmem.2, of_decide_eq_true hstrong⟩

/-- Application distributes over concatenated operation lists. -/
theorem applyOps_append (t : FileTree) (a b : List Op) :
    applyOps t (a ++ b) = applyOps t a ++ applyOps t b := by
  induction a with
  | nil => rfl
  | cons op rest ih => simp [applyOps, ih, List.append_assoc]

/-- Applying a flushed literal run yields exactly the run. -/
theorem applyOps_flushLiteral (t : FileTree) (pending : List Nat) :
    applyOps t (flushLiteral pending) = pending := by
  unfold flushLiteral
  by_cases h : pending = []
  · subst h
    simp [applyOps]
  · rw [if_neg h]
    simp [applyOps, resolveOp]

/-- A flushed literal run holds no operation but the one Literal. -/
theorem mem_flushLiteral {pending : List Nat} {op : Op} (h : op ∈ flushLiteral pending) :
    op = Op.literal pending := by
  unfold flushLiteral at h
  split at h
  · simp at h
  · simpa using h

/-- Replaying the operations the scan emits against the target tree
reproduces the pending run followed by the unscanned source bytes: the
per-file round-trip invariant of diff followed by apply. -/
theorem applyOps_diffScan (bs : Nat) (hbs : 0 < bs) (t : FileTree)
    (pending src : List Nat) (skip : Nat) :
    applyOps t (diffScan bs (treeBlocks bs 0 t) pending src skip) = pending ++ src.drop skip := by
  induction src generalizing pending skip with
  | nil =>
      simp [diffScan, applyOps_flushLiteral]
  | cons x rest ih =>
      cases skip with
      | succ s =>
          simpa [diffScan] using ih pending s
      | zero =>
          by_cases hlen : (x :: rest).length < bs
          · simp only [diffScan]
            rw [if_pos hlen, applyOps_flushLiteral]
            simp
          · simp only [diffScan]
            rw [if_neg hlen]
            cases hm : findMatch (treeBlocks bs 0 t) ((x :: rest).take bs) with
            | none =>
                simpa using ih (pending ++ [x]) 0
            | some b =>
                obtain ⟨hmem, hweak, hstrong⟩ := findMatch_spec hm
                obtain ⟨-, hblk⟩ := treeBlocks_mem hmem
                rw [applyOps_append, applyOps_flushLiteral]
                simp only [applyOps]
                rw [ih [] (bs - 1)]
                have hres : resolveOp t (Op.blockCopy b.1 b.2.1 bs) = (x :: rest).take bs := by
                  simp only [resolveOp]
                  rw [Nat.sub_zero] at hblk
                  rw [← hblk]
                  simpa [strongHash] using hstrong
                rw [hres]
                obtain ⟨k, rfl⟩ : ∃ k, bs = k + 1 := ⟨bs - 1, by omega⟩
                simp [List.take_append_drop]

/-- Tree-level round trip: applying the diff of source against target to
the target reproduces the source, file by file. -/
theorem applyPatch_diffTree (bs : Nat) (hbs : 0 < bs) (t s : FileTree) :
    applyPatch t (diffTree bs t s) = s := by
  induction s with
  | nil => rfl
  | cons f rest ih =>
      simp only [diffTree, applyPatch, List.map_cons] at ih ⊢
      rw [applyOps_diffScan bs hbs t [] f 0]
      simpa using ih

/-- FreshBytes of one file distributes over concatenation. -/
theorem freshOps_append (a b : List Op) : freshOps (a ++ b) = freshOps a + freshOps b := by
  simp [freshOps]

/-- ReusedBytes of one file distributes over concatenation. -/
theorem reusedOps_append (a b : List Op) : reusedOps (a ++ b) = reusedOps a + reusedOps b := by
  simp [reusedOps]

/-- FreshBytes of one more operation. -/
theorem freshOps_cons (op : Op) (l : List Op) : freshOps (op :: l) = opFresh op + freshOps l := by
  simp [freshOps]

/-- ReusedBytes of one more operation. -/
theorem reusedOps_cons (op : Op) (l : List Op) :
    reusedOps (op :: l) = opReused op + reusedOps l := by
  simp [reusedOps]

/-- A flushed literal run is all fresh bytes. -/
theorem freshOps_flushLiteral (pending : List Nat) :
    freshOps (flushLiteral pending) = pending.length := by
  unfold flushLiteral
  by_cases h : pending = []
  · subst h
    simp [freshOps]
  · rw [if_neg h]
    simp [freshOps, opFresh]

/-- A flushed literal run reuses nothing. -/
theorem reusedOps_flushLiteral (pending : List Nat) :
    reusedOps (flushLiteral pending) = 0 := by
  unfold flushLiteral
  by_cases h : pending = []
  · subst h
    simp [reusedOps]
  · rw [if_neg h]
    simp [reusedOps, opReused]

/-- The Fresh and Reused totals of one scan account for exactly the bytes
the scan covers. -/
theorem statsOps_diffScan (bs : Nat) (hbs : 0 < bs)
    (tb : List (Nat × Nat × List Nat)) (pending src : List Nat) (skip : Nat) :
    freshOps (diffScan bs tb pending src skip) + reusedOps (diffScan bs tb pending src skip) =
      pending.length + (src.drop skip).length := by
  induction src generalizing pending skip with
  | nil =>
      simp [diffScan, freshOps_flushLiteral, reusedOps_flushLiteral]
  | cons x rest ih =>
      cases skip with
      | succ s =>
          simpa [diffScan] using ih pending s
      | zero =>
          by_cases hlen : (x :: rest).length < bs
          · simp only [diffScan]
            rw [if_pos hlen, freshOps_flushLiteral, reusedOps_flushLiteral]
            simp
          · simp only [diffScan]
            rw [if_neg hlen]
            cases hm : findMatch tb ((x :: rest).take bs) with
            | none =>
                have := ih (pending ++ [x]) 0
                simp at this ⊢
                omega
            | some b =>
                have hrec := ih [] (bs - 1)
                rw [freshOps_append, reusedOps_append, freshOps_cons, reusedOps_cons,
                  freshOps_flushLiteral, reusedOps_flushLiteral]
                simp only [opFresh, opReused, List.length_nil, List.length_drop,
                  Nat.zero_add] at hrec ⊢
                simp only [List.length_cons, Nat.not_lt] at hlen
                simp only [List.drop_zero, List.length_cons]
                omega

/-- Tree-level stats: the two accumulators of a completed diff add up to
the source container's total byte size. -/
theorem stats_diffTree (bs : Nat) (hbs : 0 < bs) (t s : FileTree) :
    freshBytes (diffTree bs t s) + reusedBytes (diffTree bs t s) = containerSize s := by
  induction s with
  | nil => rfl
  | cons f rest ih =>
      simp only [diffTree, freshBytes, reusedBytes, containerSize, List.map_cons,
        List.sum_cons] at ih ⊢
      have := statsOps_diffScan bs hbs (treeBlocks bs 0 t) [] f 0
      simp only [List.length_nil, List.drop_zero, Nat.zero_add] at this
      omega

/-- Against an empty candidate pool the scan degenerates to one flushed
literal run covering everything it scans. -/
theorem diffScan_nil_pool (bs : Nat) (pending src : List Nat) (skip : Nat) :
    diffScan bs [] pending src skip = flushLiteral (pending ++ src.drop skip) := by
  induction src generalizing pending skip with
  | nil => simp [diffScan]
  | cons x rest ih =>
      cases skip with
      | succ s => simpa [diffScan] using ih pending s
      | zero =>
          by_cases hlen : (x :: rest).length < bs
          · simp only [diffScan]
            rw [if_pos hlen]
            simp
          · simp only [diffScan]
            rw [if_neg hlen]
            have hfm : findMatch [] ((x :: rest).take bs) = none := rfl
            rw [hfm]
            have := ih (pending ++ [x]) 0
            simpa [List.append_assoc] using this

/-- Every operation of a scan against the empty pool is a Literal. -/
theorem diffScan_nil_pool_literal (bs : Nat) (src : List Nat) (op : Op)
    (h : op ∈ diffScan bs [] [] src 0) : ∃ d, op = Op.literal d := by
  rw [diffScan_nil_pool] at h
  exact ⟨[] ++ src.drop 0, mem_flushLiteral h⟩

/-- Every BlockCopy a scan emits names a pool block that agrees with some
window of the scanned bytes on the weak and on the strong hash, and its
length is the block size. -/
theorem diffScan_blockCopy_match (bs : Nat) (tb : List (Nat × Nat × List Nat))
    (pending src : List Nat) (skip : Nat) (fi o l : Nat)
    (h : Op.blockCopy fi o l ∈ diffScan bs tb pending src skip) :
    l = bs ∧ ∃ blk n,
      (fi, o, blk) ∈ tb
      ∧ weakHash blk = weakHash ((src.drop n).take bs)
      ∧ strongHash blk = strongHash ((src.drop n).take bs) := by
  induction src generalizing pending skip with
  | nil =>
      exact absurd (mem_flushLiteral h) (by simp)
  | cons x rest ih =>
      cases skip with
      | succ s =>
          simp only [diffScan] at h
          obtain ⟨hl, blk, n, hmem, hweak, hstrong⟩ := ih pending s h
          exact ⟨hl, blk, n + 1, hmem, by simpa using hweak, by simpa using hstrong⟩
      | zero =>
          simp only [diffScan] at h
          by_cases hlen : (x :: rest).length < bs
          · rw [if_pos hlen] at h
            exact absurd (mem_flushLiteral h) (by simp)
          · rw [if_neg hlen] at h
            cases hm : findMatch tb ((x :: rest).take bs) with
            | none =>
                rw [hm] at h
                obtain ⟨hl, blk, n, hmem, hweak, hstrong⟩ := ih (pending ++ [x]) 0 h
                exact ⟨hl, blk, n + 1, hmem, by simpa using hweak, by simpa using hstrong⟩
            | some b =>
                rw [hm] at h
                rw [List.mem_append] at h
                rcases h with h | h
                · exact absurd (mem_flushLiteral h) (by simp)
                · rw [List.mem_cons] at h
                  rcases h with h | h
                  · obtain ⟨hmem, hweak, hstrong⟩ := findMatch_spec hm
                    injection h with h1 h2 h3
                    subst h1
                    subst h2
                    subst h3
                    exact ⟨rfl, b.2.2, 0, hmem, by simpa using hweak, by simpa using hstrong⟩
                  · obtain ⟨hl, blk, n, hmem, hweak, hstrong⟩ := ih [] (bs - 1) h
                    exact ⟨hl, blk, n + 1, hmem, by simpa using hweak, by simpa using hstrong⟩

/-- The comparison returns the least position at which the two hash
sequences disagree (positions past either end disagree by convention). -/
theorem firstMismatch_spec {r a : List BlockHash} {i : Nat}
    (h : firstMismatch r a = some i) :
    r[i]? ≠ a[i]? ∧ ∀ j < i, r[j]? = a[j]? := by
  induction r generalizing a i with
  | nil =>
      cases a with
      | nil => simp [firstMismatch] at h
      | cons a0 as =>
          simp only [firstMismatch, Option.some.injEq] at h
          subst h
          refine ⟨by simp, ?_⟩
          intro j hj
          omega
  | cons r0 rs ih =>
      cases a with
      | nil =>
          simp only [firstMismatch, Option.some.injEq] at h
          subst h
          refine ⟨by simp, ?_⟩
          intro j hj
          omega
      | cons a0 as =>
          rw [firstMismatch] at h
          by_cases he : r0 = a0
          · rw [if_pos he] at h
            cases hm : firstMismatch rs as with
            | none => rw [hm] at h; simp at h
            | some k =>
                rw [hm] at h
                simp at h
                subst h
                obtain ⟨h1, h2⟩ := ih hm
                refine ⟨by simpa using h1, ?_⟩
                intro j hj
                cases j with
                | zero => simp [he]
                | succ j0 =>
                    simp only [List.getElem?_cons_succ]
                    exact h2 j0 (by omega)
          · rw [if_neg he] at h
            simp only [Option.some.injEq] at h
            subst h
            refine ⟨by simp [he], ?_⟩
            intro j hj
            omega

/-- Appending block-hash records one by one is mapping the record
constructor over the hash list. -/
theorem foldl_blockHash_map (l : List BlockHash) (acc : List Msg) :
    l.foldl (fun a h => a ++ [Msg.blockHash { weak := h.weak, strong := h.strong }]) acc =
      acc ++ l.map Msg.blockHash := by
  induction l generalizing acc with
  | nil => simp
  | cons h rest ih =>
      rw [List.foldl_cons, ih]
      simp

/-- Reading back a run of block-hash records recovers the hash list. -/
theorem decodeBlockHashes_map (l : List BlockHash) :
    decodeBlockHashes (l.map Msg.blockHash) = some l := by
  induction l with
  | nil => rfl
  | cons h rest ih => simp [decodeBlockHashes, ih]

/-- C1: for every target tree and source tree, applying the patch produced
by diffing the target against the source to the target reconstructs the
source exactly, every file byte for byte. -/
theorem c1_diff_apply_roundTrip (bs : Nat) (hbs : 0 < bs) (t s : FileTree) :
    applyPatch t (diffTree bs t s) = s :=
  applyPatch_diffTree bs hbs t s

/-- Witness for C1 at a concrete block size and concrete trees with both
reused and fresh data. -/
theorem c1_diff_apply_roundTrip_witness :
    0 < 2 ∧
      applyPatch [[1, 2, 3], [4, 5]] (diffTree 2 [[1, 2, 3], [4, 5]] [[4, 5, 1, 2], [9], []]) =
        [[4, 5, 1, 2], [9], []] :=
  ⟨by decide, c1_diff_apply_roundTrip 2 (by decide) [[1, 2, 3], [4, 5]] [[4, 5, 1, 2], [9], []]⟩

/-- C2 counterexample: the count `doVerify` reports in its fatal message is
the number of reference blocks (`len(refHashes)`, here 3), not the total
count of mismatching blocks (here 1). -/
theorem c2_reported_count_counterexample :
    mismatchCount (computeSignature 1 [[0, 1, 2]]) (computeSignature 1 [[0, 9, 2]]) = 1
    ∧ (doVerifyModel 1 (computeSignature 1 [[0, 1, 2]]) [[0, 9, 2]]).1.failMessageCount = some 3
    ∧ some 3 ≠ some (1 : Nat) := by
  decide

/-- C2 (amended): when verification fails, `doVerify` reports the position
of the first mismatching block (least disagreeing index, via the
comparison error) and the total count of reference blocks checked
(`len(refHashes)`), and returns the verified tree unmodified. -/
theorem c2_verify_report (bs : Nat) (refHashes : List BlockHash) (output : FileTree) (i : Nat)
    (h : (doVerifyModel bs refHashes output).1.firstBad = some i) :
    (doVerifyModel bs refHashes output).2 = output
    ∧ (doVerifyModel bs refHashes output).1.failMessageCount = some refHashes.length
    ∧ refHashes[i]? ≠ (computeSignature bs output)[i]?
    ∧ ∀ j < i, refHashes[j]? = (computeSignature bs output)[j]? := by
  unfold doVerifyModel at h ⊢
  cases hm : firstMismatch refHashes (computeSignature bs output) with
  | none =>
      rw [hm] at h
      simp at h
  | some k =>
      rw [hm] at h
      simp only [Option.some.injEq] at h
      subst h
      obtain ⟨h1, h2⟩ := firstMismatch_spec hm
      exact ⟨rfl, rfl, h1, h2⟩

/-- Witness for C2 (amended) at a concrete failing verification. -/
theorem c2_verify_report_witness :
    (doVerifyModel 1 (computeSignature 1 [[0, 1, 2]]) [[0, 9, 2]]).1.firstBad = some 1
    ∧ ((doVerifyModel 1 (computeSignature 1 [[0, 1, 2]]) [[0, 9, 2]]).2 = [[0, 9, 2]]
      ∧ (doVerifyModel 1 (computeSignature 1 [[0, 1, 2]]) [[0, 9, 2]]).1.failMessageCount =
          some (computeSignature 1 [[0, 1, 2]]).length
      ∧ (computeSignature 1 [[0, 1, 2]])[1]? ≠ (computeSignature 1 [[0, 9, 2]])[1]?
      ∧ ∀ j < 1, (computeSignature 1 [[0, 1, 2]])[j]? = (computeSignature 1 [[0, 9, 2]])[j]?) :=
  ⟨by decide, c2_verify_report 1 (computeSignature 1 [[0, 1, 2]]) [[0, 9, 2]] 1 (by decide)⟩

/-- C3: a call of `doApply` whose cleaned output path equals the cleaned
target path is fatally refused when the in-place flag is not set — the
gate precedes any read of patch data or write — and the same call proceeds
when the flag is set. -/
theorem c3_inplace_gate (target output : String)
    (h : cleanPath (if output = "" then target else output) = cleanPath target) :
    doApplyGate target output false =
      ApplyResult.refused ("Refusing to destructively patch " ++ cleanPath target ++ " without --inplace")
    ∧ doApplyGate target output true =
      ApplyResult.proceed (cleanPath target) (cleanPath target) true := by
  constructor
  · simp only [doApplyGate]
    rw [h]
    simp
  · simp only [doApplyGate]
    rw [h]
    simp

/-- Witness for C3 at a concrete equal pair of paths. -/
theorem c3_inplace_gate_witness :
    cleanPath (if "dir" = "" then "dir" else "dir") = cleanPath "dir"
    ∧ doApplyGate "dir" "dir" false =
        ApplyResult.refused
          ("Refusing to destructively patch " ++ cleanPath "dir" ++ " without --inplace") :=
  ⟨rfl, (c3_inplace_gate "dir" "dir" rfl).1⟩

/-- C4: for every completed diff, FreshBytes plus ReusedBytes equals the
total byte size of the source container. -/
theorem c4_stats_total (bs : Nat) (hbs : 0 < bs) (t s : FileTree) :
    freshBytes (diffTree bs t s) + reusedBytes (diffTree bs t s) = containerSize s :=
  stats_diffTree bs hbs t s

/-- Witness for C4 at a concrete diff with both fresh and reused bytes. -/
theorem c4_stats_total_witness :
    0 < 2 ∧
      freshBytes (diffTree 2 [[1, 2, 3], [4, 5]] [[4, 5, 1, 2], [9], []]) +
          reusedBytes (diffTree 2 [[1, 2, 3], [4, 5]] [[4, 5, 1, 2], [9], []]) =
        containerSize [[4, 5, 1, 2], [9], []] :=
  ⟨by decide, c4_stats_total 2 (by decide) [[1, 2, 3], [4, 5]] [[4, 5, 1, 2], [9], []]⟩

/-- C5: `/dev/null` selects the empty container; diffing the null target
against any source yields an all-Literal patch with zero ReusedBytes that
reproduces the source, and diffing any target against the null source
yields the empty patch reproducing the empty tree. -/
theorem c5_null_trees (bs : Nat) (hbs : 0 < bs) (fs : String → FileTree) (t s : FileTree) :
    resolveTree fs nullPath = []
    ∧ (∀ ops ∈ diffTree bs (resolveTree fs nullPath) s, ∀ op ∈ ops, ∃ d, op = Op.literal d)
    ∧ reusedBytes (diffTree bs (resolveTree fs nullPath) s) = 0
    ∧ applyPatch (resolveTree fs nullPath) (diffTree bs (resolveTree fs nullPath) s) = s
    ∧ diffTree bs t (resolveTree fs nullPath) = []
    ∧ applyPatch t (diffTree bs t (resolveTree fs nullPath)) = [] := by
  have h0 : resolveTree fs nullPath = [] := by simp [resolveTree]
  rw [h0]
  refine ⟨rfl, ?_, ?_, applyPatch_diffTree bs hbs [] s, rfl, rfl⟩
  · intro ops hops op hop
    rw [diffTree, List.mem_map] at hops
    obtain ⟨f, hf, rfl⟩ := hops
    exact diffScan_nil_pool_literal bs f op hop
  · induction s with
    | nil => rfl
    | cons f rest ih =>
        simp only [diffTree, reusedBytes, List.map_cons, List.sum_cons] at ih ⊢
        rw [show treeBlocks bs 0 ([] : FileTree) = [] from rfl, diffScan_nil_pool bs [] f 0,
          reusedOps_flushLiteral]
        simpa using ih

/-- Witness for C5: the null-target round trip at concrete inputs. -/
theorem c5_null_trees_witness :
    0 < 2 ∧
      applyPatch (resolveTree (fun _ => [[7]]) nullPath)
          (diffTree 2 (resolveTree (fun _ => [[7]]) nullPath) [[1, 2, 3]]) = [[1, 2, 3]] :=
  ⟨by decide, (c5_null_trees 2 (by decide) (fun _ => [[7]]) [[9]] [[1, 2, 3]]).2.2.2.1⟩

/-- C6: a signature produced by `doSign` is the framed stream of the fixed
signature magic, then a header record carrying the chosen compression
descriptor, then — through the compressor that descriptor selects — the
serialized container followed by the per-file block-hash records in
container order. -/
theorem c6_signature_stream_layout (bs : Nat) (container : Container) (files : FileTree) :
    doSignStream bs container files =
      [SigToken.magic signatureMagic,
       SigToken.header compressionDefault,
       SigToken.compressed compressionDefault
         (Msg.container container :: (computeSignature bs files).map Msg.blockHash)] := by
  simp only [doSignStream]
  rw [foldl_blockHash_map]
  rfl

/-- C7: decoding the stream produced by encoding a well-formed signature
yields the signature again, container and block-hash sequences alike. -/
theorem c7_signature_roundtrip (s : SigData) (h : supportedCompression s.compression) :
    readSignatureStream (encodeSignature s) = some s := by
  simp only [encodeSignature, readSignatureStream]
  rw [if_neg (fun hc => hc rfl), if_neg (not_not_intro h), if_neg (fun hc => hc rfl)]
  rw [decodeBlockHashes_map]
  rfl

/-- Witness for C7 at a concrete one-entry, one-hash signature. -/
theorem c7_signature_roundtrip_witness :
    supportedCompression compressionDefault
    ∧ readSignatureStream (encodeSignature
        { container := [{ path := "a", kind := EntryKind.file, size := 2, symlinkTarget := "" }],
          hashes := [{ weak := 5, strong := [7] }],
          compression := compressionDefault }) =
      some { container := [{ path := "a", kind := EntryKind.file, size := 2, symlinkTarget := "" }],
             hashes := [{ weak := 5, strong := [7] }],
             compression := compressionDefault } :=
  ⟨by decide, c7_signature_roundtrip _ (by decide)⟩

/-- C8: every BlockCopy the diff scan emits pairs the source window with a
candidate target block whose strong hash equals the window's strong hash
(besides the weak-hash agreement); blocks agreeing only on the weak hash
are never paired. -/
theorem c8_blockCopy_strong_confirmed (bs : Nat) (t : FileTree) (src : List Nat)
    (fi o l : Nat) (h : Op.blockCopy fi o l ∈ diffScan bs (treeBlocks bs 0 t) [] src 0) :
    l = bs ∧ ∃ blk n,
      (fi, o, blk) ∈ treeBlocks bs 0 t
      ∧ weakHash blk = weakHash ((src.drop n).take bs)
      ∧ strongHash blk = strongHash ((src.drop n).take bs) :=
  diffScan_blockCopy_match bs (treeBlocks bs 0 t) [] src 0 fi o l h

/-- Witness for C8 at a concrete emitted BlockCopy. -/
theorem c8_blockCopy_strong_confirmed_witness :
    Op.blockCopy 0 0 2 ∈ diffScan 2 (treeBlocks 2 0 [[5, 6]]) [] [5, 6] 0
    ∧ (2 = 2 ∧ ∃ blk n,
        (0, 0, blk) ∈ treeBlocks 2 0 [[5, 6]]
        ∧ weakHash blk = weakHash (([5, 6].drop n).take 2)
        ∧ strongHash blk = strongHash (([5, 6].drop n).take 2)) :=
  ⟨by decide, c8_blockCopy_strong_confirmed 2 [[5, 6]] [5, 6] 0 0 2 (by decide)⟩

example :
    weakHash [0, 1] = weakHash [1, 0]
    ∧ strongHash [0, 1] ≠ strongHash [1, 0]
    ∧ diffTree 2 [[0, 1]] [[1, 0]] = [[Op.literal [1, 0]]] := by
  decide

/-- C9: an empty output path defaults to the target path before the gate,
so such a call is refused without the in-place flag and proceeds with it;
and since both paths are cleaned before comparison, any spelling of the
output path that cleans to the cleaned target path triggers the same
requirement. -/
theorem c9_output_default_gate (target output : String) :
    doApplyGate target "" false =
      ApplyResult.refused ("Refusing to destructively patch " ++ cleanPath target ++ " without --inplace")
    ∧ doApplyGate target "" true = ApplyResult.proceed (cleanPath target) (cleanPath target) true
    ∧ (output ≠ "" → cleanPath output = cleanPath target →
        doApplyGate target output false =
          ApplyResult.refused
            ("Refusing to destructively patch " ++ cleanPath output ++ " without --inplace")) := by
  refine ⟨?_, ?_, ?_⟩
  · simp [doApplyGate]
  · simp [doApplyGate]
  · intro hne heq
    simp only [doApplyGate]
    rw [if_neg hne, heq]
    simp

/-- Witness for C9: a differently spelt output path cleaning to the target
path is refused. -/
theorem c9_output_default_gate_witness :
    ("a//./b/" : String) ≠ ""
    ∧ cleanPath "a//./b/" = cleanPath "a/b"
    ∧ doApplyGate "a/b" "a//./b/" false =
        ApplyResult.refused
          ("Refusing to destructively patch " ++ cleanPath "a//./b/" ++ " without --inplace") :=
  ⟨by decide, by decide, (c9_output_default_gate "a/b" "a//./b/").2.2 (by decide) (by decide)⟩

/-- C10: two `doDiff` calls differing only in the `brotliQuality` argument
produce identical outputs — the parameter is never used; the quality
written into the diff context comes from the global `diffArgs.quality`. -/
theorem c10_brotliQuality_unused (bs : Nat) (fs : String → FileTree) (target source : String)
    (q1 q2 g : Int) :
    doDiffModel bs fs target source q1 g = doDiffModel bs fs target source q2 g
    ∧ (doDiffModel bs fs target source q1 g).compression =
        { algorithm := brotliAlgorithm, quality := toInt32 g } :=
  ⟨rfl, rfl⟩
